import Mathlib

/-!
Shallow embedding of the S-DES cipher class (TypeScript source `src/unnamed/part_000`).

Bit vectors are `List Nat` whose entries are 0/1; JavaScript array accesses
`a[i]` that could read an out-of-range index (yielding `undefined`) are
modelled as `List.get?`, and every computation that performs such an access
returns an `Option`: `none` models the out-of-range / `undefined` case.
`Math.floor(Math.random() * n)` (a uniformly random integer in `[0, n-1]`)
is modelled by an explicit stream `r : Nat -> Nat` of draws, clamped by
`% n`: every actual outcome (a value `< n`) is a fixed point of the clamp,
and every clamped value is a possible actual outcome, so quantifying over
all streams quantifies over exactly the possible randomness outcomes.
-/

namespace SDES

/-- Option-valued map: `mapMO f l` succeeds iff `f` succeeds on every element,
returning the list of results in order.  This is the shape of a JavaScript
`Array.prototype.map` whose body can produce `undefined`. -/
def mapMO (f : α → Option β) : List α → Option (List β)
  | [] => some []
  | x :: xs => do
    let y ← f x
    let ys ← mapMO f xs
    pure (y :: ys)

/-- Source `[array[i], array[j]] = [array[j], array[i]]`: exchange the entries
at positions `i` and `j`.  Both indices are in range at every call site
(`i < length`, `j ≤ i`), so the `getD` defaults are never observed. -/
def swapAt (l : List Nat) (i j : Nat) : List Nat :=
  (l.set i (l.getD j 0)).set j (l.getD i 0)

/-- Loop body of `shuffleArray`: the counter runs `i = length-1, ..., 1`
(here `n` counts the remaining iterations, so iteration `n+1` works on
index `n+1` with random draw `r n % (n+2)`, a value in `[0, n+1]`, exactly
`Math.floor(Math.random() * (i + 1))` for `i = n+1`). -/
def shuffleAux (r : Nat → Nat) : Nat → List Nat → List Nat
  | 0, arr => arr
  | Nat.succ n, arr => shuffleAux r n (swapAt arr (n + 1) (r n % (n + 2)))

/-- Source `shuffleArray`: in-place Fisher-Yates shuffle driven by the random
stream `r`. -/
def shuffleArray (arr : List Nat) (r : Nat → Nat) : List Nat :=
  shuffleAux r (arr.length - 1) arr

/-- Source `generatePermutationTable(length)`: fill a table with `length`
independent random values in `[1, length]` (`Math.floor(Math.random()*length)+1`,
draws from `rt`), then shuffle it (draws from `rs`). -/
def generatePermutationTable (length : Nat) (rt rs : Nat → Nat) : List Nat :=
  shuffleArray ((List.range length).map fun i => rt i % length + 1) rs

/-- Source `generateSBox`: four rows, each a Fisher-Yates shuffle of
`[0, 1, 2, 3]`; row `i` draws from the stream `r i`. -/
def generateSBox (r : Nat → Nat → Nat) : List (List Nat) :=
  (List.range 4).map fun i => shuffleArray [0, 1, 2, 3] (r i)

/-- Source `getInitialPermutation`: the identity table `[1, ..., 8]`. -/
def getInitialPermutation : List Nat :=
  (List.range 8).map fun i => i + 1

/-- Source `getArrayInverse`: start from a fresh array of the same length and
set `inverse[IP[i] - 1] = i + 1` for each `i`.  The fresh JavaScript array
holds `undefined` in unassigned slots; those are modelled by the sentinel `0`
(for the `IP` actually used — the identity — every slot is assigned, which
the theorems below establish, so the sentinel is never observed).  An
assignment whose target index is out of range is dropped (`List.set` is the
identity there), which again never happens for the actual `IP`. -/
def getArrayInverse (IP : List Nat) : List Nat :=
  (List.range IP.length).foldl
    (fun acc i => acc.set (IP.getD i 0 - 1) (i + 1))
    (List.replicate IP.length 0)

/-- Source `permute`: `permutationTable.map(index => input[index - 1])`,
failing if any 1-based index falls outside `input`. -/
def permuteO (input table : List Nat) : Option (List Nat) :=
  mapMO (fun idx => input.get? (idx - 1)) table

/-- Source `circularLeftShift`: `input.slice(shift).concat(input.slice(0, shift))`. -/
def circularLeftShift (input : List Nat) (shiftNumber : Nat) : List Nat :=
  input.drop shiftNumber ++ input.take shiftNumber

/-- Source `generateSubKeys`: permute the key through P10, split into 5-bit
halves, shift both by 1, permute the concatenation through P8 (key1), shift
both by 2 more, permute through P8 again (key2). -/
def generateSubKeys (key P10 P8 : List Nat) : Option (List Nat × List Nat) := do
  let permutedKey ← permuteO key P10
  let left := permutedKey.take 5
  let right := (permutedKey.drop 5).take 5
  let left1 := circularLeftShift left 1
  let right1 := circularLeftShift right 1
  let key1 ← permuteO (left1 ++ right1) P8
  let left2 := circularLeftShift left1 2
  let right2 := circularLeftShift right1 2
  let key2 ← permuteO (left2 ++ right2) P8
  pure (key1, key2)

/-- Source `xor`: `bits1.map((bit, i) => bit ^ bits2[i])`.  An access past the
end of `bits2` is modelled as failure. -/
def xorO : List Nat → List Nat → Option (List Nat)
  | [], _ => some []
  | _ :: _, [] => none
  | b :: bs, c :: cs => (xorO bs cs).map fun rest => (b ^^^ c) :: rest

/-- Fuel-driven rendering of `v.toString(2)`: most-significant digit first,
no leading zeros, `0` rendered as `[0]`.  The fuel only needs to be at least
`v` (the number of binary digits is far smaller), and `natToBits` always
passes exactly that, so the fuel-exhausted branch is never taken. -/
def natToBitsAux : Nat → Nat → List Nat
  | 0, v => [v % 2]
  | fuel + 1, v => if v < 2 then [v] else natToBitsAux fuel (v / 2) ++ [v % 2]

/-- Binary digits of `v`, most-significant first: `v.toString(2)` as a digit list. -/
def natToBits (v : Nat) : List Nat :=
  natToBitsAux v v

/-- String `padStart(n, "0")` on a digit list. -/
def padTo (n : Nat) (l : List Nat) : List Nat :=
  List.replicate (n - l.length) 0 ++ l

/-- Source `value.toString(2).padStart(2, "0").split("").map(Number)`. -/
def toBits2 (v : Nat) : List Nat :=
  padTo 2 (natToBits v)

/-- Source `sBox`: split the 8-bit input into two nibbles, derive row/column
indices from the outer/inner bits of each nibble, look up `BOX_1` / `BOX_2`,
and emit each looked-up value as two bits.  A row or column index outside the
4x4 matrices is a failed (`undefined`) lookup. -/
def sBoxO (BOX_1 BOX_2 : List (List Nat)) (input : List Nat) : Option (List Nat) := do
  let leftInput := input.take 4
  let rightInput := (input.drop 4).take 4
  let l0 ← leftInput.get? 0
  let l1 ← leftInput.get? 1
  let l2 ← leftInput.get? 2
  let l3 ← leftInput.get? 3
  let r0 ← rightInput.get? 0
  let r1 ← rightInput.get? 1
  let r2 ← rightInput.get? 2
  let r3 ← rightInput.get? 3
  let row1 := (l0 <<< 1) + l3
  let col1 := (l1 <<< 1) + l2
  let row2 := (r0 <<< 1) + r3
  let col2 := (r1 <<< 1) + r2
  let box1Row ← BOX_1.get? row1
  let sBox1Value ← box1Row.get? col1
  let box2Row ← BOX_2.get? row2
  let sBox2Value ← box2Row.get? col2
  pure (toBits2 sBox1Value ++ toBits2 sBox2Value)

/-- Source `p4Permutation`: `input.map((_, i) => input[this.P4[i] - 1])` —
note it iterates over the positions of `input`, not of the table. -/
def p4PermutationO (P4 input : List Nat) : Option (List Nat) :=
  mapMO (fun i => do input.get? ((← P4.get? i) - 1)) (List.range input.length)

/-- Fixed expansion table of `expandAndPermute`. -/
def expansionPermutation : List Nat := [4, 1, 2, 3, 2, 3, 4, 1]

/-- Source `expandAndPermute`: permute the 4-bit right half through the fixed
8-entry expansion table. -/
def expandAndPermuteO (right : List Nat) : Option (List Nat) :=
  permuteO right expansionPermutation

/-- The immutable state of one cipher instance: the master key, the five
permutation tables, the two S-boxes, and the derived subkey pair (stored in
the source as `subKeys.key1` / `subKeys.key2`). -/
structure State where
  key : List Nat
  IP : List Nat
  IPInverse : List Nat
  P10 : List Nat
  P8 : List Nat
  P4 : List Nat
  BOX_1 : List (List Nat)
  BOX_2 : List (List Nat)
  key1 : List Nat
  key2 : List Nat
  deriving DecidableEq, Repr

/-- Source `round`: expand-and-permute the right half, XOR with the subkey,
substitute through the S-boxes, permute through P4, XOR with the left half;
the right half is returned unchanged. -/
def roundO (st : State) (left right key : List Nat) : Option (List Nat × List Nat) := do
  let expandedRight ← expandAndPermuteO right
  let xorResult ← xorO expandedRight key
  let sBoxResult ← sBoxO st.BOX_1 st.BOX_2 xorResult
  let p4Result ← p4PermutationO st.P4 sBoxResult
  let newLeft ← xorO left p4Result
  pure (newLeft, right)

/-- Source `encrypt`: initial permutation, round with key1, swap halves,
round with key2, final permutation. -/
def encryptO (st : State) (value : List Nat) : Option (List Nat) := do
  let data ← permuteO value st.IP
  let left := data.take 4
  let right := (data.drop 4).take 4
  let (left1, right1) ← roundO st left right st.key1
  let (left2, right2) ← roundO st right1 left1 st.key2
  permuteO (left2 ++ right2) st.IPInverse

/-- Source `decrypt`: identical to `encrypt` with the subkeys in the
opposite order (key2 first, then key1). -/
def decryptO (st : State) (ciphertext : List Nat) : Option (List Nat) := do
  let data ← permuteO ciphertext st.IP
  let left := data.take 4
  let right := (data.drop 4).take 4
  let (left1, right1) ← roundO st left right st.key2
  let (left2, right2) ← roundO st right1 left1 st.key1
  permuteO (left2 ++ right2) st.IPInverse

/-- The randomness consumed by the constructor: one fill stream and one
shuffle stream per generated permutation table, and one stream family per
S-box (row index, then draw index). -/
structure RandSrc where
  p4t : Nat → Nat
  p4s : Nat → Nat
  p8t : Nat → Nat
  p8s : Nat → Nat
  p10t : Nat → Nat
  p10s : Nat → Nat
  box1 : Nat → Nat → Nat
  box2 : Nat → Nat → Nat

/-- Source constructor: generate P4, P8, P10, the identity IP and its
inverse, the two S-boxes, then derive the subkeys.  Fails only if the subkey
derivation hits an out-of-range access (it cannot for a 10-bit key, as
proved below). -/
def mk (key : List Nat) (r : RandSrc) : Option State := do
  let P4 := generatePermutationTable 4 r.p4t r.p4s
  let P8 := generatePermutationTable 8 r.p8t r.p8s
  let P10 := generatePermutationTable 10 r.p10t r.p10s
  let IP := getInitialPermutation
  let IPInverse := getArrayInverse IP
  let BOX_1 := generateSBox r.box1
  let BOX_2 := generateSBox r.box2
  let (key1, key2) ← generateSubKeys key P10 P8
  pure ⟨key, IP, IPInverse, P10, P8, P4, BOX_1, BOX_2, key1, key2⟩

/-- Source `stringToBinary`: each character code rendered as a zero-padded
8-bit binary string, all digit strings concatenated.  A string is modelled
as its list of UTF-16 code units. -/
def stringToBinary (input : List Nat) : List Nat :=
  (input.map fun c => padTo 8 (natToBits c)).flatten

/-- Fuel-driven slicing of a digit stream into consecutive 8-digit blocks
(the loops `for (i = 0; i < length; i += 8) slice(i, i + 8)`).  The fuel
only needs to be at least the list length; `chunk8` passes exactly that,
so the fuel-exhausted branch is never taken. -/
def chunk8Aux : Nat → List Nat → List (List Nat)
  | _, [] => []
  | 0, _ :: _ => []
  | fuel + 1, x :: xs => (x :: xs).take 8 :: chunk8Aux fuel ((x :: xs).drop 8)

/-- Consecutive 8-digit blocks of a digit stream. -/
def chunk8 (l : List Nat) : List (List Nat) :=
  chunk8Aux l.length l

/-- Source `parseInt(byte, 2)` on a digit list: most-significant-first binary
value. -/
def bitsToNat (l : List Nat) : Nat :=
  l.foldl (fun acc b => acc * 2 + b) 0

/-- Source `binaryToString`: join the digits, slice into 8-digit groups, and
turn each group into a character code.  (Joining single digits and re-slicing
8 characters at a time is exactly 8-digit chunking, since every entry of the
list is one binary digit at every call site.) -/
def binaryToString (input : List Nat) : List Nat :=
  (chunk8 input).map bitsToNat

/-- Source `encryptText`: encode the text to a bit stream, encrypt each
8-bit block, decode the concatenated result back to character codes. -/
def encryptTextO (st : State) (plaintext : List Nat) : Option (List Nat) := do
  let encryptedBinary ← mapMO (encryptO st) (chunk8 (stringToBinary plaintext))
  pure (binaryToString encryptedBinary.flatten)

/-- Source `decryptText`: encode the ciphertext to a bit stream, decrypt each
8-bit block, decode the concatenated result back to character codes. -/
def decryptTextO (st : State) (ciphertext : List Nat) : Option (List Nat) := do
  let decryptedBinary ← mapMO (decryptO st) (chunk8 (stringToBinary ciphertext))
  pure (binaryToString decryptedBinary.flatten)

end SDES

namespace SDES

/-! ### Well-formedness predicates -/

/-- An `n`-bit 0/1 vector. -/
def Bits (l : List Nat) (n : Nat) : Prop :=
  l.length = n ∧ ∀ b ∈ l, b ≤ 1

/-- A permutation table of length `L` whose entries all lie in `[1, L]`. -/
def TableWF (t : List Nat) (L : Nat) : Prop :=
  t.length = L ∧ ∀ x ∈ t, 1 ≤ x ∧ x ≤ L

/-- A 4x4 S-box whose entries all lie in `[0, 3]`. -/
def BoxWF (B : List (List Nat)) : Prop :=
  B.length = 4 ∧ ∀ row ∈ B, row.length = 4 ∧ ∀ v ∈ row, v ≤ 3

instance (l : List Nat) (n : Nat) : Decidable (Bits l n) := by
  unfold Bits; infer_instance

instance (t : List Nat) (L : Nat) : Decidable (TableWF t L) := by
  unfold TableWF; infer_instance

instance (B : List (List Nat)) : Decidable (BoxWF B) := by
  unfold BoxWF; infer_instance

/-! ### Specification-side descriptions of the round function

These three definitions transcribe the specification's description of the
round function (its expansion pattern, S-box addressing, and P4 step) as
total functions on bit vectors; the theorems below prove that the embedded
source code computes exactly these on well-formed inputs. -/

/-- The expansion described by the spec: the 1-based pattern `[4,1,2,3,2,3,4,1]`
applied to the 4-bit right half. -/
def expandSpec (R : List Nat) : List Nat :=
  [R.getD 3 0, R.getD 0 0, R.getD 1 0, R.getD 2 0,
   R.getD 1 0, R.getD 2 0, R.getD 3 0, R.getD 0 0]

/-- The S-box step described by the spec: split the 8-bit vector into two
halves, address each box at `row = bit0*2 + bit3`, `col = bit1*2 + bit2`
(`BOX_1` for the left half, `BOX_2` for the right half), and emit each
looked-up value as 2 bits most-significant first. -/
def sBoxSpec (B1 B2 : List (List Nat)) (x : List Nat) : List Nat :=
  let row1 := x.getD 0 0 * 2 + x.getD 3 0
  let col1 := x.getD 1 0 * 2 + x.getD 2 0
  let row2 := x.getD 4 0 * 2 + x.getD 7 0
  let col2 := x.getD 5 0 * 2 + x.getD 6 0
  let v1 := (B1.getD row1 []).getD col1 0
  let v2 := (B2.getD row2 []).getD col2 0
  [v1 / 2, v1 % 2, v2 / 2, v2 % 2]

/-- The P4 step described by the spec: output position `i` holds input bit
`P4[i] - 1`. -/
def p4Spec (P4 s : List Nat) : List Nat :=
  (List.range s.length).map fun i => s.getD (P4.getD i 0 - 1) 0

/-- Everything `encrypt`/`decrypt` need from a cipher state in order to be
total and self-inverse: identity initial permutation (and inverse), in-range
P10/P8/P4 tables, well-formed S-boxes, and 8-bit 0/1 subkeys.  The theorems
below show every state the constructor builds from a 10-bit 0/1 key
satisfies this. -/
def InstanceWF (st : State) : Prop :=
  st.IP = [1, 2, 3, 4, 5, 6, 7, 8] ∧ st.IPInverse = [1, 2, 3, 4, 5, 6, 7, 8] ∧
  TableWF st.P10 10 ∧ TableWF st.P8 8 ∧ TableWF st.P4 4 ∧
  BoxWF st.BOX_1 ∧ BoxWF st.BOX_2 ∧ Bits st.key1 8 ∧ Bits st.key2 8

/-- A concrete random source (every draw is 0), used to instantiate
universally quantified statements at a checkable point. -/
def zeroRand : RandSrc :=
  ⟨fun _ => 0, fun _ => 0, fun _ => 0, fun _ => 0, fun _ => 0, fun _ => 0,
   fun _ _ => 0, fun _ _ => 0⟩

/-- The state the constructor builds from the repository's demo key
`[0,0,0,1,0,1,0,0,1,1]` and the all-zero random source (each generated table
degenerates to all-ones, each S-box row to `[1,2,3,0]`). -/
def exampleState : State :=
  ⟨[0, 0, 0, 1, 0, 1, 0, 0, 1, 1],
   [1, 2, 3, 4, 5, 6, 7, 8], [1, 2, 3, 4, 5, 6, 7, 8],
   [1, 1, 1, 1, 1, 1, 1, 1, 1, 1], [1, 1, 1, 1, 1, 1, 1, 1], [1, 1, 1, 1],
   [[1, 2, 3, 0], [1, 2, 3, 0], [1, 2, 3, 0], [1, 2, 3, 0]],
   [[1, 2, 3, 0], [1, 2, 3, 0], [1, 2, 3, 0], [1, 2, 3, 0]],
   [0, 0, 0, 0, 0, 0, 0, 0], [0, 0, 0, 0, 0, 0, 0, 0]⟩

/-- A state whose five permutation tables have all entries in range and whose
S-boxes are 4x4 matrices with entries in 0..3, but whose stored `key1` holds
a non-bit value: encryption drives the S-box row index out of range on it. -/
def badState : State :=
  ⟨[], [1, 2, 3, 4, 5, 6, 7, 8], [1, 2, 3, 4, 5, 6, 7, 8],
   [1, 2, 3, 4, 5, 6, 7, 8, 9, 10], [1, 2, 3, 4, 5, 6, 7, 8], [1, 2, 3, 4],
   [[0, 1, 2, 3], [0, 1, 2, 3], [0, 1, 2, 3], [0, 1, 2, 3]],
   [[0, 1, 2, 3], [0, 1, 2, 3], [0, 1, 2, 3], [0, 1, 2, 3]],
   [2, 0, 0, 0, 0, 0, 0, 0], [0, 0, 0, 0, 0, 0, 0, 0]⟩

/-! ### The Fisher-Yates shuffle permutes its input -/

theorem cons_set_perm (x : Nat) :
    ∀ (xs : List Nat) (m : Nat), m < xs.length →
      (xs.getD m 0 :: xs.set m x).Perm (x :: xs)
  | [], m, hm => absurd hm (by simp)
  | y :: ys, 0, _ => by simpa [List.getD] using List.Perm.swap x y ys
  | y :: ys, m + 1, hm => by
    have ih := cons_set_perm x ys m (by simpa using hm)
    have step1 : (y :: ys).getD (m + 1) 0 :: (y :: ys).set (m + 1) x
        = ys.getD m 0 :: y :: ys.set m x := by simp [List.getD]
    rw [step1]
    exact ((List.Perm.swap y (ys.getD m 0) (ys.set m x)).trans
      (ih.cons y)).trans (List.Perm.swap x y ys)

theorem swapAt_perm :
    ∀ (l : List Nat) (i j : Nat), i < l.length → j < l.length →
      (swapAt l i j).Perm l
  | [], i, _, hi, _ => absurd hi (by simp)
  | x :: xs, 0, 0, _, _ => by simp [swapAt, List.getD]
  | x :: xs, 0, m + 1, _, hj => by
    have : swapAt (x :: xs) 0 (m + 1) = xs.getD m 0 :: xs.set m x := by
      simp [swapAt, List.getD]
    rw [this]
    exact cons_set_perm x xs m (by simpa using hj)
  | x :: xs, n + 1, 0, hi, _ => by
    have : swapAt (x :: xs) (n + 1) 0 = xs.getD n 0 :: xs.set n x := by
      simp [swapAt, List.getD]
    rw [this]
    exact cons_set_perm x xs n (by simpa using hi)
  | x :: xs, n + 1, m + 1, hi, hj => by
    have : swapAt (x :: xs) (n + 1) (m + 1) = x :: swapAt xs n m := by
      simp [swapAt, List.getD]
    rw [this]
    exact (swapAt_perm xs n m (by simpa using hi) (by simpa using hj)).cons x

theorem swapAt_length (l : List Nat) (i j : Nat) :
    (swapAt l i j).length = l.length := by
  simp [swapAt]

theorem shuffleAux_perm (r : Nat → Nat) :
    ∀ (n : Nat) (l : List Nat), n < l.length → (shuffleAux r n l).Perm l
  | 0, l, _ => List.Perm.refl l
  | n + 1, l, h => by
    have hswap : (swapAt l (n + 1) (r n % (n + 2))).Perm l :=
      swapAt_perm l (n + 1) (r n % (n + 2)) h
        (lt_of_le_of_lt (Nat.le_of_lt_succ (Nat.mod_lt _ (by omega))) h)
    have hlen : (swapAt l (n + 1) (r n % (n + 2))).length = l.length :=
      swapAt_length ..
    have ih := shuffleAux_perm r n (swapAt l (n + 1) (r n % (n + 2)))
      (by omega)
    exact ih.trans hswap

theorem shuffleArray_perm (l : List Nat) (r : Nat → Nat) :
    (shuffleArray l r).Perm l := by
  cases l with
  | nil => exact List.Perm.refl _
  | cons x xs =>
    exact shuffleAux_perm r (x :: xs).length.pred (x :: xs) (by simp)

/-! ### The generated tables: length and entry ranges -/

theorem generatePermutationTable_perm (n : Nat) (rt rs : Nat → Nat) :
    (generatePermutationTable n rt rs).Perm
      ((List.range n).map fun i => rt i % n + 1) :=
  shuffleArray_perm ..

theorem generatePermutationTable_length (n : Nat) (rt rs : Nat → Nat) :
    (generatePermutationTable n rt rs).length = n := by
  rw [(generatePermutationTable_perm n rt rs).length_eq]
  simp

theorem generatePermutationTable_wf (n : Nat) (rt rs : Nat → Nat) :
    TableWF (generatePermutationTable n rt rs) n := by
  refine ⟨generatePermutationTable_length n rt rs, fun x hx => ?_⟩
  have hx' := (generatePermutationTable_perm n rt rs).mem_iff.mp hx
  simp only [List.mem_map, List.mem_range] at hx'
  obtain ⟨i, hi, rfl⟩ := hx'
  exact ⟨Nat.le_add_left 1 _, Nat.succ_le_of_lt (Nat.mod_lt _ (by omega))⟩

theorem generateSBox_row_perm (r : Nat → Nat → Nat) :
    ∀ row ∈ generateSBox r, row.Perm [0, 1, 2, 3] := by
  intro row hrow
  simp only [generateSBox, List.mem_map, List.mem_range] at hrow
  obtain ⟨i, _, rfl⟩ := hrow
  exact shuffleArray_perm [0, 1, 2, 3] (r i)

theorem generateSBox_wf (r : Nat → Nat → Nat) : BoxWF (generateSBox r) := by
  refine ⟨by simp [generateSBox], fun row hrow => ?_⟩
  have hperm := generateSBox_row_perm r row hrow
  refine ⟨by simpa using hperm.length_eq, fun v hv => ?_⟩
  have := hperm.mem_iff.mp hv
  simp only [List.mem_cons, List.mem_singleton] at this
  rcases this with rfl | rfl | rfl | rfl | h
  · omega
  · omega
  · omega
  · omega
  · simp at h

end SDES

namespace SDES

/-! ### Lookup and permutation lemmas -/

theorem get?_eq_some_getD {α : Type} [Inhabited α] (l : List α) (n : Nat) (d : α)
    (h : n < l.length) : l.get? n = some (l.getD n d) := by
  simp [List.getD_eq_getElem?_getD, List.get?_eq_getElem?, List.getElem?_eq_getElem h]

theorem mapMO_nil {α β : Type} (f : α → Option β) : mapMO f [] = some [] := rfl

theorem mapMO_cons {α β : Type} (f : α → Option β) (x : α) (xs : List α) :
    mapMO f (x :: xs) =
      (f x).bind fun y => (mapMO f xs).bind fun ys => some (y :: ys) := rfl

theorem mapMO_cons_eq_some {α β : Type} {f : α → Option β} {x : α} {xs : List α}
    {out : List β} (h : mapMO f (x :: xs) = some out) :
    ∃ y ys, f x = some y ∧ mapMO f xs = some ys ∧ out = y :: ys := by
  rw [mapMO_cons, Option.bind_eq_some] at h
  obtain ⟨y, hy, h⟩ := h
  rw [Option.bind_eq_some] at h
  obtain ⟨ys, hys, h⟩ := h
  exact ⟨y, ys, hy, hys, (Option.some.injEq _ _ ▸ h).symm⟩

theorem mapMO_length {α β : Type} (f : α → Option β) :
    ∀ {l : List α} {out : List β}, mapMO f l = some out → out.length = l.length
  | [], out, h => by
    rw [mapMO_nil, Option.some.injEq] at h
    simp [← h]
  | x :: xs, out, h => by
    obtain ⟨y, ys, _, hys, rfl⟩ := mapMO_cons_eq_some h
    simp [mapMO_length f hys]

theorem permuteO_total (input : List Nat) :
    ∀ (table : List Nat), (∀ t ∈ table, 1 ≤ t ∧ t ≤ input.length) →
      ∃ out, permuteO input table = some out ∧ out.length = table.length ∧
        ∀ b ∈ out, b ∈ input
  | [], _ => ⟨[], rfl, rfl, by simp⟩
  | t :: ts, h => by
    obtain ⟨h1, h2⟩ := h t (by simp)
    obtain ⟨out, hout, hlen, hmem⟩ :=
      permuteO_total input ts (fun u hu => h u (List.mem_cons_of_mem t hu))
    have hidx : t - 1 < input.length := by omega
    refine ⟨input.getD (t - 1) 0 :: out, ?_, by simp [hlen], ?_⟩
    · rw [permuteO, mapMO_cons, get?_eq_some_getD input (t - 1) 0 hidx]
      rw [permuteO] at hout
      rw [hout]
      rfl
    · intro b hb
      rcases List.mem_cons.mp hb with rfl | hb
      · rw [List.getD_eq_getElem?_getD, List.getElem?_eq_getElem hidx]
        exact List.getElem_mem hidx
      · exact hmem b hb

theorem permuteO_range' (l : List Nat) :
    ∀ (m k : Nat), k + m ≤ l.length →
      permuteO l (List.range' (k + 1) m) = some ((l.drop k).take m)
  | 0, k, _ => by simp [permuteO, mapMO, List.range']
  | m + 1, k, h => by
    have hk : k < l.length := by omega
    have ih := permuteO_range' l m (k + 1) (by omega)
    rw [show List.range' (k + 1) (m + 1) = (k + 1) :: List.range' (k + 1 + 1) m
      from rfl, permuteO, mapMO_cons]
    rw [permuteO] at ih
    rw [show (k + 1) - 1 = k from rfl, get?_eq_some_getD l k 0 hk, ih]
    simp only [Option.some_bind, Option.some.injEq]
    rw [List.getD_eq_getElem?_getD, List.getElem?_eq_getElem hk,
      List.drop_eq_getElem_cons hk, List.take_succ_cons]
    rfl

/-- The identity table `[1, ..., 8]` maps any 8-element vector to itself. -/
theorem permuteO_id8 (l : List Nat) (h : l.length = 8) :
    permuteO l [1, 2, 3, 4, 5, 6, 7, 8] = some l := by
  have := permuteO_range' l 8 0 (by omega)
  simpa [h, List.take_of_length_le] using this

/-! ### XOR lemmas -/

theorem xorO_total :
    ∀ (bs cs : List Nat), bs.length ≤ cs.length →
      ∃ out, xorO bs cs = some out ∧ out.length = bs.length
  | [], _, _ => ⟨[], rfl, rfl⟩
  | b :: bs, [], h => absurd h (by simp)
  | b :: bs, c :: cs, h => by
    obtain ⟨out, hout, hlen⟩ := xorO_total bs cs (by simpa using h)
    exact ⟨(b ^^^ c) :: out, by simp [xorO, hout], by simp [hlen]⟩

theorem xorO_cons_eq_some {b c : Nat} {bs cs out : List Nat}
    (h : xorO (b :: bs) (c :: cs) = some out) :
    ∃ rest, xorO bs cs = some rest ∧ out = (b ^^^ c) :: rest := by
  rw [show xorO (b :: bs) (c :: cs)
      = (xorO bs cs).map (fun rest => (b ^^^ c) :: rest) from rfl,
    Option.map_eq_some'] at h
  obtain ⟨rest, hrest, hout⟩ := h
  exact ⟨rest, hrest, hout.symm⟩

theorem xorO_bits :
    ∀ {bs cs out : List Nat}, xorO bs cs = some out →
      (∀ b ∈ bs, b ≤ 1) → (∀ c ∈ cs, c ≤ 1) → ∀ b ∈ out, b ≤ 1
  | [], _, out, h, _, _ => by
    rw [show xorO [] _ = some [] from rfl, Option.some.injEq] at h
    simp [← h]
  | b :: bs, [], out, h, _, _ => by
    rw [show xorO (b :: bs) [] = none from rfl] at h
    exact absurd h (by simp)
  | b :: bs, c :: cs, out, h, hb, hc => by
    obtain ⟨rest, hrest, rfl⟩ := xorO_cons_eq_some h
    intro v hv
    rcases List.mem_cons.mp hv with rfl | hv
    · have key : ∀ a ≤ 1, ∀ b ≤ 1, a ^^^ b ≤ 1 := by decide
      exact key b (hb b (by simp)) c (hc c (by simp))
    · exact xorO_bits hrest (fun u hu => hb u (by simp [hu]))
        (fun u hu => hc u (by simp [hu])) v hv

theorem xorO_cancel :
    ∀ {bs cs out : List Nat}, xorO bs cs = some out → xorO out cs = some bs
  | [], cs, out, h => by
    rw [show xorO [] cs = some [] from rfl, Option.some.injEq] at h
    rw [← h]
    rfl
  | b :: bs, [], out, h => by
    rw [show xorO (b :: bs) [] = none from rfl] at h
    exact absurd h (by simp)
  | b :: bs, c :: cs, out, h => by
    obtain ⟨rest, hrest, rfl⟩ := xorO_cons_eq_some h
    have ih := xorO_cancel hrest
    rw [show xorO ((b ^^^ c) :: rest) (c :: cs)
        = (xorO rest cs).map (fun tail => (b ^^^ c ^^^ c) :: tail) from rfl,
      ih, Nat.xor_cancel_right]
    rfl

theorem xorO_eq_zipWith :
    ∀ (bs cs : List Nat), bs.length ≤ cs.length →
      xorO bs cs = some (List.zipWith (fun a b => a ^^^ b) bs cs)
  | [], _, _ => rfl
  | b :: bs, [], h => absurd h (by simp)
  | b :: bs, c :: cs, h => by
    simp [xorO, xorO_eq_zipWith bs cs (by simpa using h)]

end SDES

namespace SDES

/-! ### Decomposing fixed-length vectors -/

theorem exists_len4 (l : List Nat) (h : l.length = 4) :
    ∃ a b c d, l = [a, b, c, d] := by
  match l, h with
  | [a, b, c, d], _ => exact ⟨a, b, c, d, rfl⟩

theorem exists_len5 (l : List Nat) (h : l.length = 5) :
    ∃ a b c d e, l = [a, b, c, d, e] := by
  match l, h with
  | [a, b, c, d, e], _ => exact ⟨a, b, c, d, e, rfl⟩

theorem exists_len8 (l : List Nat) (h : l.length = 8) :
    ∃ a b c d e f g k, l = [a, b, c, d, e, f, g, k] := by
  match l, h with
  | [a, b, c, d, e, f, g, k], _ => exact ⟨a, b, c, d, e, f, g, k, rfl⟩

/-- On an in-range table, `permuteO` is the total `getD` map. -/
theorem permuteO_eq_getD (input : List Nat) :
    ∀ (table : List Nat), (∀ t ∈ table, 1 ≤ t ∧ t ≤ input.length) →
      permuteO input table = some (table.map fun t => input.getD (t - 1) 0)
  | [], _ => rfl
  | t :: ts, h => by
    obtain ⟨h1, h2⟩ := h t (by simp)
    have ih := permuteO_eq_getD input ts (fun u hu => h u (List.mem_cons_of_mem t hu))
    rw [permuteO, mapMO_cons, get?_eq_some_getD input (t - 1) 0 (by omega)]
    rw [permuteO] at ih
    rw [ih]
    rfl

/-! ### The S-box step -/

theorem sBoxO_decomposed (B1 B2 : List (List Nat)) (x0 x1 x2 x3 x4 x5 x6 x7 : Nat) :
    sBoxO B1 B2 [x0, x1, x2, x3, x4, x5, x6, x7] =
      (B1.get? ((x0 <<< 1) + x3)).bind fun box1Row =>
      (box1Row.get? ((x1 <<< 1) + x2)).bind fun v1 =>
      (B2.get? ((x4 <<< 1) + x7)).bind fun box2Row =>
      (box2Row.get? ((x5 <<< 1) + x6)).bind fun v2 =>
      some (toBits2 v1 ++ toBits2 v2) := rfl

theorem sBoxO_spec (B1 B2 : List (List Nat)) (x : List Nat)
    (hx : Bits x 8) (h1 : BoxWF B1) (h2 : BoxWF B2) :
    sBoxO B1 B2 x = some (sBoxSpec B1 B2 x) ∧ Bits (sBoxSpec B1 B2 x) 4 := by
  obtain ⟨hlen, hbits⟩ := hx
  obtain ⟨x0, x1, x2, x3, x4, x5, x6, x7, rfl⟩ := exists_len8 x hlen
  have hb : ∀ i ∈ [x0, x1, x2, x3, x4, x5, x6, x7], i ≤ 1 := hbits
  have hx0 := hb x0 (by simp); have hx1 := hb x1 (by simp)
  have hx2 := hb x2 (by simp); have hx3 := hb x3 (by simp)
  have hx4 := hb x4 (by simp); have hx5 := hb x5 (by simp)
  have hx6 := hb x6 (by simp); have hx7 := hb x7 (by simp)
  have bound : ∀ a ≤ 1, ∀ b ≤ 1, (a <<< 1) + b ≤ 3 := by decide
  have hrow1 : (x0 <<< 1) + x3 < B1.length := by
    rw [h1.1]; have := bound x0 hx0 x3 hx3; omega
  have hrow2 : (x4 <<< 1) + x7 < B2.length := by
    rw [h2.1]; have := bound x4 hx4 x7 hx7; omega
  set row1 := B1.getD ((x0 <<< 1) + x3) [] with hrow1def
  set row2 := B2.getD ((x4 <<< 1) + x7) [] with hrow2def
  have hrow1mem : row1 ∈ B1 := by
    rw [hrow1def, List.getD_eq_getElem?_getD, List.getElem?_eq_getElem hrow1]
    exact List.getElem_mem hrow1
  have hrow2mem : row2 ∈ B2 := by
    rw [hrow2def, List.getD_eq_getElem?_getD, List.getElem?_eq_getElem hrow2]
    exact List.getElem_mem hrow2
  obtain ⟨hrow1len, hrow1val⟩ := h1.2 row1 hrow1mem
  obtain ⟨hrow2len, hrow2val⟩ := h2.2 row2 hrow2mem
  have hcol1 : (x1 <<< 1) + x2 < row1.length := by
    rw [hrow1len]; have := bound x1 hx1 x2 hx2; omega
  have hcol2 : (x5 <<< 1) + x6 < row2.length := by
    rw [hrow2len]; have := bound x5 hx5 x6 hx6; omega
  set v1 := row1.getD ((x1 <<< 1) + x2) 0 with hv1def
  set v2 := row2.getD ((x5 <<< 1) + x6) 0 with hv2def
  have hv1 : v1 ≤ 3 := by
    refine hrow1val v1 ?_
    rw [hv1def, List.getD_eq_getElem?_getD, List.getElem?_eq_getElem hcol1]
    exact List.getElem_mem hcol1
  have hv2 : v2 ≤ 3 := by
    refine hrow2val v2 ?_
    rw [hv2def, List.getD_eq_getElem?_getD, List.getElem?_eq_getElem hcol2]
    exact List.getElem_mem hcol2
  have tb : ∀ v ≤ 3, toBits2 v = [v / 2, v % 2] := by decide
  have veq : ∀ a ≤ 1, ∀ b ≤ 1, (a <<< 1) + b = a * 2 + b := by decide
  have hspec : sBoxSpec B1 B2 [x0, x1, x2, x3, x4, x5, x6, x7]
      = [v1 / 2, v1 % 2, v2 / 2, v2 % 2] := by
    simp only [sBoxSpec, List.getD_cons_zero, List.getD_cons_succ]
    rw [← veq x0 hx0 x3 hx3, ← veq x1 hx1 x2 hx2,
      ← veq x4 hx4 x7 hx7, ← veq x5 hx5 x6 hx6]
  refine ⟨?_, ?_⟩
  · rw [sBoxO_decomposed, get?_eq_some_getD B1 _ [] hrow1, ← hrow1def,
      Option.some_bind, get?_eq_some_getD row1 _ 0 hcol1, ← hv1def,
      Option.some_bind, get?_eq_some_getD B2 _ [] hrow2, ← hrow2def,
      Option.some_bind, get?_eq_some_getD row2 _ 0 hcol2, ← hv2def,
      Option.some_bind, hspec, tb v1 hv1, tb v2 hv2]
    rfl
  · rw [hspec]
    have digits : ∀ v ≤ 3, v / 2 ≤ 1 ∧ v % 2 ≤ 1 := by decide
    refine ⟨rfl, fun b hb => ?_⟩
    rcases List.mem_cons.mp hb with rfl | hb
    · exact (digits v1 hv1).1
    rcases List.mem_cons.mp hb with rfl | hb
    · exact (digits v1 hv1).2
    rcases List.mem_cons.mp hb with rfl | hb
    · exact (digits v2 hv2).1
    rcases List.mem_cons.mp hb with rfl | hb
    · exact (digits v2 hv2).2
    · simp at hb

end SDES

namespace SDES

/-! ### The special-cased P4 permutation agrees with the general routine -/

theorem p4_range_aux (input : List Nat) :
    ∀ (tbl P4 : List Nat) (k : Nat), (∀ i, P4.get? (k + i) = tbl.get? i) →
      mapMO (fun i => do input.get? ((← P4.get? i) - 1)) (List.range' k tbl.length)
        = mapMO (fun t => input.get? (t - 1)) tbl
  | [], _, k, _ => rfl
  | t :: ts, P4, k, h => by
    have h0 : P4.get? k = some t := by simpa using h 0
    have ih := p4_range_aux input ts P4 (k + 1) fun i => by
      have := h (i + 1)
      rwa [show k + (i + 1) = k + 1 + i by omega,
        show (t :: ts).get? (i + 1) = ts.get? i from rfl] at this
    rw [show (t :: ts).length = ts.length + 1 from rfl,
      show List.range' k (ts.length + 1) = k :: List.range' (k + 1) ts.length
        from rfl,
      mapMO_cons, mapMO_cons]
    simp only [h0, Option.some_bind, ih]
    rfl

/-- Whenever the input has as many positions as the table has entries — in
particular for the 4-bit inputs the round function feeds it — the
special-cased `p4Permutation` computes exactly `permute(input, P4)`. -/
theorem p4PermutationO_eq_permuteO (P4 input : List Nat)
    (h : input.length = P4.length) :
    p4PermutationO P4 input = permuteO input P4 := by
  rw [p4PermutationO, permuteO, h, List.range_eq_range']
  exact p4_range_aux input P4 P4 0 fun i => by simp

theorem p4PermutationO_spec (P4 s : List Nat) (hP4 : TableWF P4 4)
    (hs : s.length = 4) :
    p4PermutationO P4 s = some (p4Spec P4 s) ∧ (p4Spec P4 s).length = 4 ∧
      ∀ b ∈ p4Spec P4 s, b ∈ s := by
  obtain ⟨hlen, hmem⟩ := hP4
  obtain ⟨t1, t2, t3, t4, rfl⟩ := exists_len4 P4 hlen
  have hrange : ∀ t ∈ [t1, t2, t3, t4], 1 ≤ t ∧ t ≤ s.length := by
    intro t ht
    have := hmem t ht
    omega
  have heq := permuteO_eq_getD s [t1, t2, t3, t4] hrange
  have hspec : p4Spec [t1, t2, t3, t4] s
      = [t1, t2, t3, t4].map fun t => s.getD (t - 1) 0 := by
    rw [p4Spec, hs]
    rfl
  refine ⟨?_, by rw [hspec]; rfl, ?_⟩
  · rw [p4PermutationO_eq_permuteO _ _ (hs.trans hlen.symm), heq, hspec]
  · intro b hb
    rw [hspec] at hb
    simp only [List.map_cons, List.map_nil, List.mem_cons] at hb
    have getDmem : ∀ t, 1 ≤ t → t ≤ s.length → s.getD (t - 1) 0 ∈ s := by
      intro t h1 h2
      have hidx : t - 1 < s.length := by omega
      rw [List.getD_eq_getElem?_getD, List.getElem?_eq_getElem hidx]
      exact List.getElem_mem hidx
    rcases hb with rfl | rfl | rfl | rfl | hb
    · exact getDmem t1 (hrange t1 (by simp)).1 (hrange t1 (by simp)).2
    · exact getDmem t2 (hrange t2 (by simp)).1 (hrange t2 (by simp)).2
    · exact getDmem t3 (hrange t3 (by simp)).1 (hrange t3 (by simp)).2
    · exact getDmem t4 (hrange t4 (by simp)).1 (hrange t4 (by simp)).2
    · simp at hb

/-! ### The expansion step -/

theorem expandAndPermuteO_spec (R : List Nat) (h : R.length = 4) :
    expandAndPermuteO R = some (expandSpec R) ∧ (expandSpec R).length = 8 ∧
      ∀ b ∈ expandSpec R, b ∈ R := by
  obtain ⟨r1, r2, r3, r4, rfl⟩ := exists_len4 R h
  refine ⟨rfl, rfl, ?_⟩
  intro b hb
  simp only [expandSpec, List.getD_cons_zero, List.getD_cons_succ,
    List.mem_cons] at hb
  rcases hb with rfl | rfl | rfl | rfl | rfl | rfl | rfl | rfl | hb <;>
    simp_all

end SDES

namespace SDES

/-! ### Round function lemmas -/

theorem roundO_eq (st : State) (l r k : List Nat) :
    roundO st l r k =
      (expandAndPermuteO r).bind fun er =>
      (xorO er k).bind fun x =>
      (sBoxO st.BOX_1 st.BOX_2 x).bind fun s =>
      (p4PermutationO st.P4 s).bind fun p =>
      (xorO l p).bind fun nl =>
      some (nl, r) := rfl

theorem roundO_eq_some {st : State} {l r k : List Nat} {out : List Nat × List Nat}
    (h : roundO st l r k = some out) :
    ∃ er x s p nl, expandAndPermuteO r = some er ∧ xorO er k = some x ∧
      sBoxO st.BOX_1 st.BOX_2 x = some s ∧ p4PermutationO st.P4 s = some p ∧
      xorO l p = some nl ∧ out = (nl, r) := by
  rw [roundO_eq, Option.bind_eq_some] at h
  obtain ⟨er, her, h⟩ := h
  rw [Option.bind_eq_some] at h
  obtain ⟨x, hx, h⟩ := h
  rw [Option.bind_eq_some] at h
  obtain ⟨s, hs, h⟩ := h
  rw [Option.bind_eq_some] at h
  obtain ⟨p, hp, h⟩ := h
  rw [Option.bind_eq_some] at h
  obtain ⟨nl, hnl, h⟩ := h
  exact ⟨er, x, s, p, nl, her, hx, hs, hp, hnl, (Option.some.injEq _ _ ▸ h).symm⟩

/-- The round function never touches its right half: the second component of
a successful round is the input right half. -/
theorem roundO_snd {st : State} {l r k : List Nat} {out : List Nat × List Nat}
    (h : roundO st l r k = some out) : out.2 = r := by
  obtain ⟨_, _, _, _, _, _, _, _, _, _, rfl⟩ := roundO_eq_some h
  rfl

/-- A successful round is undone by running the same round again on its
output: the XOR with the (input-independent) P4 result cancels. -/
theorem roundO_invol {st : State} {l r k l2 : List Nat} {r2 : List Nat}
    (h : roundO st l r k = some (l2, r2)) : roundO st l2 r k = some (l, r) := by
  obtain ⟨er, x, s, p, nl, her, hx, hs, hp, hnl, hout⟩ := roundO_eq_some h
  obtain ⟨rfl, rfl⟩ := Prod.mk.injEq .. ▸ hout
  rw [roundO_eq, her, Option.some_bind, hx, Option.some_bind, hs,
    Option.some_bind, hp, Option.some_bind, xorO_cancel hnl, Option.some_bind]

/-- On 4-bit halves, an 8-bit subkey, a well-formed P4 and well-formed
S-boxes, the round succeeds, keeps the right half, produces a 4-bit new left
half, and is its own inverse. -/
theorem roundO_total (st : State) (l r k : List Nat)
    (hl : Bits l 4) (hr : Bits r 4) (hk : Bits k 8)
    (hP4 : TableWF st.P4 4) (hB1 : BoxWF st.BOX_1) (hB2 : BoxWF st.BOX_2) :
    ∃ nl, roundO st l r k = some (nl, r) ∧ Bits nl 4 ∧
      roundO st nl r k = some (l, r) := by
  obtain ⟨her, herlen, hermem⟩ := expandAndPermuteO_spec r hr.1
  have herbits : ∀ b ∈ expandSpec r, b ≤ 1 := fun b hb => hr.2 b (hermem b hb)
  obtain ⟨x, hx, hxlen⟩ := xorO_total (expandSpec r) k (by rw [herlen, hk.1])
  have hxbits : ∀ b ∈ x, b ≤ 1 := xorO_bits hx herbits hk.2
  obtain ⟨hs, hsbits⟩ :=
    sBoxO_spec st.BOX_1 st.BOX_2 x ⟨by omega, hxbits⟩ hB1 hB2
  obtain ⟨hp, hplen, hpmem⟩ :=
    p4PermutationO_spec st.P4 (sBoxSpec st.BOX_1 st.BOX_2 x) hP4 hsbits.1
  have hpbits : ∀ b ∈ p4Spec st.P4 (sBoxSpec st.BOX_1 st.BOX_2 x), b ≤ 1 :=
    fun b hb => hsbits.2 b (hpmem b hb)
  obtain ⟨nl, hnl, hnllen⟩ :=
    xorO_total l (p4Spec st.P4 (sBoxSpec st.BOX_1 st.BOX_2 x))
      (by rw [hl.1, hplen])
  have hround : roundO st l r k = some (nl, r) := by
    rw [roundO_eq, her, Option.some_bind, hx, Option.some_bind, hs,
      Option.some_bind, hp, Option.some_bind, hnl, Option.some_bind]
  refine ⟨nl, hround, ⟨by rw [hnllen, hl.1], xorO_bits hnl hl.2 hpbits⟩,
    roundO_invol hround⟩

end SDES

namespace SDES

/-! ### Block en/decryption: structure, totality, round trip -/

theorem encryptO_eq (st : State) (v : List Nat) :
    encryptO st v =
      (permuteO v st.IP).bind fun data =>
      (roundO st (data.take 4) ((data.drop 4).take 4) st.key1).bind fun p1 =>
      (roundO st p1.2 p1.1 st.key2).bind fun p2 =>
      permuteO (p2.1 ++ p2.2) st.IPInverse := rfl

theorem decryptO_eq (st : State) (v : List Nat) :
    decryptO st v =
      (permuteO v st.IP).bind fun data =>
      (roundO st (data.take 4) ((data.drop 4).take 4) st.key2).bind fun p1 =>
      (roundO st p1.2 p1.1 st.key1).bind fun p2 =>
      permuteO (p2.1 ++ p2.2) st.IPInverse := rfl

theorem bits_take4 {b : List Nat} (hb : Bits b 8) : Bits (b.take 4) 4 :=
  ⟨by simp [hb.1], fun x hx => hb.2 x (List.take_subset _ _ hx)⟩

theorem bits_drop_take4 {b : List Nat} (hb : Bits b 8) :
    Bits ((b.drop 4).take 4) 4 :=
  ⟨by simp [hb.1], fun x hx =>
    hb.2 x (List.drop_subset _ _ (List.take_subset _ _ hx))⟩

theorem bits_append4 {a b : List Nat} (ha : Bits a 4) (hb : Bits b 4) :
    Bits (a ++ b) 8 := by
  refine ⟨by simp [ha.1, hb.1], fun x hx => ?_⟩
  rcases List.mem_append.mp hx with h | h
  · exact ha.2 x h
  · exact hb.2 x h

/-- Generic two-round Feistel body (the common shape of `encrypt` and
`decrypt`, with the two subkeys abstracted): on any state whose tables are
in range and whose S-boxes are well formed, it is total on 8-bit 0/1 blocks
and returns an 8-bit 0/1 block. -/
theorem feistelO_total (st : State) (kA kB v : List Nat)
    (hIP : TableWF st.IP 8) (hIPi : TableWF st.IPInverse 8)
    (hP4 : TableWF st.P4 4) (hB1 : BoxWF st.BOX_1) (hB2 : BoxWF st.BOX_2)
    (hkA : Bits kA 8) (hkB : Bits kB 8) (hv : Bits v 8) :
    ∃ out,
      ((permuteO v st.IP).bind fun data =>
       (roundO st (data.take 4) ((data.drop 4).take 4) kA).bind fun p1 =>
       (roundO st p1.2 p1.1 kB).bind fun p2 =>
       permuteO (p2.1 ++ p2.2) st.IPInverse) = some out ∧ Bits out 8 := by
  obtain ⟨data, hdata, hdatalen, hdatamem⟩ :=
    permuteO_total v st.IP (fun t ht => by
      have := hIP.2 t ht
      rw [hv.1]
      omega)
  have hdatabits : Bits data 8 :=
    ⟨by rw [hdatalen, hIP.1], fun x hx => hv.2 x (hdatamem x hx)⟩
  obtain ⟨nl1, hr1, hnl1, _⟩ :=
    roundO_total st (data.take 4) ((data.drop 4).take 4) kA
      (bits_take4 hdatabits) (bits_drop_take4 hdatabits) hkA hP4 hB1 hB2
  obtain ⟨nl2, hr2, hnl2, _⟩ :=
    roundO_total st ((data.drop 4).take 4) nl1 kB
      (bits_drop_take4 hdatabits) hnl1 hkB hP4 hB1 hB2
  have hcbits : Bits (nl2 ++ nl1) 8 := bits_append4 hnl2 hnl1
  obtain ⟨out, hout, houtlen, houtmem⟩ :=
    permuteO_total (nl2 ++ nl1) st.IPInverse (fun t ht => by
      have := hIPi.2 t ht
      rw [hcbits.1]
      omega)
  refine ⟨out, ?_, ⟨by rw [houtlen, hIPi.1], fun x hx => hcbits.2 x (houtmem x hx)⟩⟩
  rw [hdata, Option.some_bind, hr1, Option.some_bind]
  simp only
  rw [hr2, Option.some_bind]
  simp only
  exact hout

/-- On a well-formed constructed instance, encryption of an 8-bit 0/1 block
succeeds with an 8-bit 0/1 ciphertext block, and decryption of that block
returns the plaintext block. -/
theorem encrypt_decrypt_block (st : State) (hwf : InstanceWF st)
    (b : List Nat) (hb : Bits b 8) :
    ∃ c, encryptO st b = some c ∧ Bits c 8 ∧ decryptO st c = some b := by
  obtain ⟨hIP, hIPi, _, _, hP4, hB1, hB2, hk1, hk2⟩ := hwf
  have hbid : permuteO b st.IP = some b := by
    rw [hIP]
    exact permuteO_id8 b hb.1
  obtain ⟨nl1, hr1, hnl1, hr1inv⟩ :=
    roundO_total st (b.take 4) ((b.drop 4).take 4) st.key1
      (bits_take4 hb) (bits_drop_take4 hb) hk1 hP4 hB1 hB2
  obtain ⟨nl2, hr2, hnl2, hr2inv⟩ :=
    roundO_total st ((b.drop 4).take 4) nl1 st.key2
      (bits_drop_take4 hb) hnl1 hk2 hP4 hB1 hB2
  have hcbits : Bits (nl2 ++ nl1) 8 := bits_append4 hnl2 hnl1
  have henc : encryptO st b = some (nl2 ++ nl1) := by
    rw [encryptO_eq, hbid, Option.some_bind, hr1, Option.some_bind]
    simp only
    rw [hr2, Option.some_bind]
    simp only
    rw [hIPi]
    exact permuteO_id8 _ hcbits.1
  refine ⟨nl2 ++ nl1, henc, hcbits, ?_⟩
  have hcid : permuteO (nl2 ++ nl1) st.IP = some (nl2 ++ nl1) := by
    rw [hIP]
    exact permuteO_id8 _ hcbits.1
  have htake : (nl2 ++ nl1).take 4 = nl2 := List.take_left' hnl2.1
  have hdrop : ((nl2 ++ nl1).drop 4).take 4 = nl1 := by
    rw [List.drop_left' hnl2.1]
    exact List.take_of_length_le (by rw [hnl1.1])
  rw [decryptO_eq, hcid, Option.some_bind, htake, hdrop, hr2inv,
    Option.some_bind]
  simp only
  rw [hr1inv, Option.some_bind]
  simp only
  rw [hIPi]
  have hbd : (b.drop 4).take 4 = b.drop 4 :=
    List.take_of_length_le (by simp [hb.1])
  have hsplit : b.take 4 ++ (b.drop 4).take 4 = b := by
    rw [hbd, List.take_append_drop]
  rw [hsplit]
  exact permuteO_id8 b hb.1

end SDES

namespace SDES

/-! ### The key schedule and the constructor -/

theorem circularLeftShift_length (l : List Nat) (s : Nat) :
    (circularLeftShift l s).length = l.length := by
  simp [circularLeftShift]
  omega

theorem bits_circularLeftShift {l : List Nat} {n : Nat} (h : Bits l n)
    (s : Nat) : Bits (circularLeftShift l s) n := by
  refine ⟨by rw [circularLeftShift_length, h.1], fun x hx => ?_⟩
  rcases List.mem_append.mp hx with hm | hm
  · exact h.2 x (List.drop_subset _ _ hm)
  · exact h.2 x (List.take_subset _ _ hm)

theorem bits_take5 {l : List Nat} (h : Bits l 10) : Bits (l.take 5) 5 :=
  ⟨by simp [h.1], fun x hx => h.2 x (List.take_subset _ _ hx)⟩

theorem bits_drop_take5 {l : List Nat} (h : Bits l 10) :
    Bits ((l.drop 5).take 5) 5 :=
  ⟨by simp [h.1], fun x hx =>
    h.2 x (List.drop_subset _ _ (List.take_subset _ _ hx))⟩

theorem bits_append5 {a b : List Nat} (ha : Bits a 5) (hb : Bits b 5) :
    Bits (a ++ b) 10 := by
  refine ⟨by simp [ha.1, hb.1], fun x hx => ?_⟩
  rcases List.mem_append.mp hx with h | h
  · exact ha.2 x h
  · exact hb.2 x h

theorem generateSubKeys_eq (key P10 P8 : List Nat) :
    generateSubKeys key P10 P8 =
      (permuteO key P10).bind fun pk =>
      (permuteO (circularLeftShift (pk.take 5) 1 ++
        circularLeftShift ((pk.drop 5).take 5) 1) P8).bind fun key1 =>
      (permuteO (circularLeftShift (circularLeftShift (pk.take 5) 1) 2 ++
        circularLeftShift (circularLeftShift ((pk.drop 5).take 5) 1) 2)
        P8).bind fun key2 =>
      some (key1, key2) := rfl

theorem generateSubKeys_total (key P10 P8 : List Nat) (hkey : Bits key 10)
    (hP10 : TableWF P10 10) (hP8 : TableWF P8 8) :
    ∃ k1 k2, generateSubKeys key P10 P8 = some (k1, k2) ∧
      Bits k1 8 ∧ Bits k2 8 := by
  obtain ⟨pk, hpk, hpklen, hpkmem⟩ :=
    permuteO_total key P10 (fun t ht => by
      have := hP10.2 t ht
      rw [hkey.1]
      omega)
  have hpkbits : Bits pk 10 :=
    ⟨by rw [hpklen, hP10.1], fun x hx => hkey.2 x (hpkmem x hx)⟩
  have hin1 : Bits (circularLeftShift (pk.take 5) 1 ++
      circularLeftShift ((pk.drop 5).take 5) 1) 10 :=
    bits_append5 (bits_circularLeftShift (bits_take5 hpkbits) 1)
      (bits_circularLeftShift (bits_drop_take5 hpkbits) 1)
  have hin2 : Bits (circularLeftShift (circularLeftShift (pk.take 5) 1) 2 ++
      circularLeftShift (circularLeftShift ((pk.drop 5).take 5) 1) 2) 10 :=
    bits_append5
      (bits_circularLeftShift (bits_circularLeftShift (bits_take5 hpkbits) 1) 2)
      (bits_circularLeftShift (bits_circularLeftShift (bits_drop_take5 hpkbits) 1) 2)
  obtain ⟨k1, hk1, hk1len, hk1mem⟩ :=
    permuteO_total _ P8 (fun t ht => by
      have := hP8.2 t ht
      rw [hin1.1]
      omega)
  obtain ⟨k2, hk2, hk2len, hk2mem⟩ :=
    permuteO_total _ P8 (fun t ht => by
      have := hP8.2 t ht
      rw [hin2.1]
      omega)
  refine ⟨k1, k2, ?_, ⟨by rw [hk1len, hP8.1], fun x hx => hin1.2 x (hk1mem x hx)⟩,
    ⟨by rw [hk2len, hP8.1], fun x hx => hin2.2 x (hk2mem x hx)⟩⟩
  rw [generateSubKeys_eq, hpk, Option.some_bind, hk1, Option.some_bind, hk2,
    Option.some_bind]

theorem getInitialPermutation_eq :
    getInitialPermutation = [1, 2, 3, 4, 5, 6, 7, 8] := by decide

theorem getArrayInverse_id :
    getArrayInverse [1, 2, 3, 4, 5, 6, 7, 8] = [1, 2, 3, 4, 5, 6, 7, 8] := by
  decide

theorem mk_eq (key : List Nat) (r : RandSrc) :
    SDES.mk key r =
      (generateSubKeys key (generatePermutationTable 10 r.p10t r.p10s)
        (generatePermutationTable 8 r.p8t r.p8s)).bind fun ks =>
      some ⟨key, getInitialPermutation, getArrayInverse getInitialPermutation,
        generatePermutationTable 10 r.p10t r.p10s,
        generatePermutationTable 8 r.p8t r.p8s,
        generatePermutationTable 4 r.p4t r.p4s,
        generateSBox r.box1, generateSBox r.box2, ks.1, ks.2⟩ := rfl

theorem mk_eq_some {key : List Nat} {r : RandSrc} {st : State}
    (h : SDES.mk key r = some st) :
    st.key = key ∧ st.IP = [1, 2, 3, 4, 5, 6, 7, 8] ∧
    st.IPInverse = [1, 2, 3, 4, 5, 6, 7, 8] ∧
    st.P10 = generatePermutationTable 10 r.p10t r.p10s ∧
    st.P8 = generatePermutationTable 8 r.p8t r.p8s ∧
    st.P4 = generatePermutationTable 4 r.p4t r.p4s ∧
    st.BOX_1 = generateSBox r.box1 ∧ st.BOX_2 = generateSBox r.box2 ∧
    generateSubKeys key st.P10 st.P8 = some (st.key1, st.key2) := by
  obtain ⟨stkey, IPf, IPif, P10f, P8f, P4f, B1f, B2f, k1f, k2f⟩ := st
  rw [mk_eq, Option.bind_eq_some] at h
  obtain ⟨ks, hks, h⟩ := h
  obtain ⟨ka, kb⟩ := ks
  rw [Option.some.injEq, State.mk.injEq] at h
  obtain ⟨e1, e2, e3, e4, e5, e6, e7, e8, e9, e10⟩ := h
  refine ⟨e1.symm, ?_, ?_, e4.symm, e5.symm, e6.symm, e7.symm, e8.symm, ?_⟩
  · rw [← e2]
    exact getInitialPermutation_eq
  · rw [← e3, getInitialPermutation_eq]
    exact getArrayInverse_id
  · have e9a : ka = k1f := e9
    have e10a : kb = k2f := e10
    rw [e4, e5, e9a, e10a] at hks
    exact hks

/-- The constructor succeeds on every 10-bit 0/1 key (for every outcome of
the random source) and builds a well-formed instance. -/
theorem mk_total (key : List Nat) (r : RandSrc) (hkey : Bits key 10) :
    ∃ st, SDES.mk key r = some st ∧ InstanceWF st := by
  obtain ⟨k1, k2, hks, hbk1, hbk2⟩ :=
    generateSubKeys_total key
      (generatePermutationTable 10 r.p10t r.p10s)
      (generatePermutationTable 8 r.p8t r.p8s) hkey
      (generatePermutationTable_wf 10 r.p10t r.p10s)
      (generatePermutationTable_wf 8 r.p8t r.p8s)
  have hmk : SDES.mk key r =
      some ⟨key, getInitialPermutation, getArrayInverse getInitialPermutation,
        generatePermutationTable 10 r.p10t r.p10s,
        generatePermutationTable 8 r.p8t r.p8s,
        generatePermutationTable 4 r.p4t r.p4s,
        generateSBox r.box1, generateSBox r.box2, k1, k2⟩ := by
    rw [mk_eq, hks, Option.some_bind]
  obtain ⟨_, hIP, hIPi, hP10, hP8, hP4, hB1, hB2, hgsk⟩ := mk_eq_some hmk
  rw [hP10, hP8, hks, Option.some.injEq, Prod.mk.injEq] at hgsk
  refine ⟨_, hmk, hIP, hIPi, ?_, ?_, ?_, ?_, ?_, ?_, ?_⟩
  · rw [hP10]
    exact generatePermutationTable_wf ..
  · rw [hP8]
    exact generatePermutationTable_wf ..
  · rw [hP4]
    exact generatePermutationTable_wf ..
  · rw [hB1]
    exact generateSBox_wf _
  · rw [hB2]
    exact generateSBox_wf _
  · rw [← hgsk.1]
    exact hbk1
  · rw [← hgsk.2]
    exact hbk2

/-- Every state the constructor returns on a 10-bit 0/1 key is well formed. -/
theorem mk_wf {key : List Nat} {r : RandSrc} {st : State}
    (h : SDES.mk key r = some st) (hkey : Bits key 10) : InstanceWF st := by
  obtain ⟨st2, hst2, hwf⟩ := mk_total key r hkey
  rw [h, Option.some.injEq] at hst2
  rwa [hst2]

end SDES

namespace SDES

/-! ### Byte encoding and 8-bit chunking -/

set_option maxRecDepth 4000 in
theorem byte_bits : ∀ c < 256, Bits (padTo 8 (natToBits c)) 8 := by decide

set_option maxRecDepth 4000 in
theorem byte_value_roundtrip : ∀ c < 256, bitsToNat (padTo 8 (natToBits c)) = c := by
  decide

theorem foldl_bits_acc :
    ∀ (l : List Nat) (acc : Nat),
      l.foldl (fun a b => a * 2 + b) acc
        = acc * 2 ^ l.length + l.foldl (fun a b => a * 2 + b) 0
  | [], acc => by simp
  | b :: l, acc => by
    rw [List.foldl_cons, List.foldl_cons, foldl_bits_acc l (acc * 2 + b),
      foldl_bits_acc l (0 * 2 + b), List.length_cons, pow_succ]
    ring

theorem bitsToNat_cons (b : Nat) (l : List Nat) :
    bitsToNat (b :: l) = b * 2 ^ l.length + bitsToNat l := by
  rw [bitsToNat, List.foldl_cons, foldl_bits_acc, bitsToNat]
  ring

theorem bitsToNat_lt_two_pow :
    ∀ (l : List Nat), (∀ b ∈ l, b ≤ 1) → bitsToNat l < 2 ^ l.length
  | [], _ => by simp [bitsToNat]
  | b :: l, h => by
    have hb := h b (by simp)
    have ih := bitsToNat_lt_two_pow l (fun u hu => h u (by simp [hu]))
    rw [bitsToNat_cons, List.length_cons, pow_succ]
    have hbe : b * 2 ^ l.length ≤ 1 * 2 ^ l.length :=
      Nat.mul_le_mul_right _ hb
    omega

theorem bitsToNat_inj :
    ∀ (l1 l2 : List Nat), l1.length = l2.length →
      (∀ b ∈ l1, b ≤ 1) → (∀ b ∈ l2, b ≤ 1) →
      bitsToNat l1 = bitsToNat l2 → l1 = l2
  | [], [], _, _, _, _ => rfl
  | [], b :: l, h, _, _, _ => by simp at h
  | b :: l, [], h, _, _, _ => by simp at h
  | b1 :: l1, b2 :: l2, h, h1, h2, heq => by
    have hlen : l1.length = l2.length := by simpa using h
    rw [bitsToNat_cons, bitsToNat_cons, hlen] at heq
    have hv1 := bitsToNat_lt_two_pow l1 (fun u hu => h1 u (by simp [hu]))
    have hv2 := bitsToNat_lt_two_pow l2 (fun u hu => h2 u (by simp [hu]))
    rw [hlen] at hv1
    have hb1 := h1 b1 (by simp)
    have hb2 := h2 b2 (by simp)
    have hbeq : b1 = b2 ∧ bitsToNat l1 = bitsToNat l2 := by
      interval_cases b1 <;> interval_cases b2 <;> omega
    rw [hbeq.1, bitsToNat_inj l1 l2 hlen (fun u hu => h1 u (by simp [hu]))
      (fun u hu => h2 u (by simp [hu])) hbeq.2]

theorem bitsToNat_lt (bits : List Nat) (h : Bits bits 8) :
    bitsToNat bits < 256 := by
  have := bitsToNat_lt_two_pow bits h.2
  rw [h.1] at this
  simpa using this

theorem byte_bits_roundtrip (bits : List Nat) (h : Bits bits 8) :
    padTo 8 (natToBits (bitsToNat bits)) = bits := by
  have hv : bitsToNat bits < 256 := bitsToNat_lt bits h
  have hdec := byte_bits (bitsToNat bits) hv
  have hval := byte_value_roundtrip (bitsToNat bits) hv
  exact bitsToNat_inj _ _ (by rw [hdec.1, h.1]) hdec.2 h.2 hval

theorem chunk8Aux_congr :
    ∀ (f1 f2 : Nat) (l : List Nat), l.length ≤ f1 → l.length ≤ f2 →
      chunk8Aux f1 l = chunk8Aux f2 l
  | f1, f2, [], _, _ => by cases f1 <;> cases f2 <;> rfl
  | 0, _, x :: xs, h1, _ => absurd h1 (by simp)
  | _ + 1, 0, x :: xs, _, h2 => absurd h2 (by simp)
  | f1 + 1, f2 + 1, x :: xs, h1, h2 => by
    simp only [chunk8Aux]
    congr 1
    exact chunk8Aux_congr f1 f2 ((x :: xs).drop 8)
      (by simp at h1 ⊢; omega) (by simp at h2 ⊢; omega)

theorem chunk8_cons8 (b rest : List Nat) (h : b.length = 8) :
    chunk8 (b ++ rest) = b :: chunk8 rest := by
  cases b with
  | nil => simp at h
  | cons x xs =>
    have hlen : ((x :: xs) ++ rest).length = (7 + rest.length) + 1 := by
      rw [List.length_append, h]
      omega
    rw [chunk8, hlen, List.cons_append]
    simp only [chunk8Aux]
    rw [← List.cons_append, List.take_left' h, List.drop_left' h]
    rw [chunk8]
    congr 1
    exact chunk8Aux_congr (7 + rest.length) rest.length rest (by omega)
      (le_refl _)

theorem chunk8_flatten :
    ∀ (bs : List (List Nat)), (∀ b ∈ bs, b.length = 8) →
      chunk8 bs.flatten = bs
  | [], _ => rfl
  | b :: bs, h => by
    rw [List.flatten_cons, chunk8_cons8 b _ (h b (by simp)),
      chunk8_flatten bs (fun u hu => h u (by simp [hu]))]

/-! ### Option-valued maps over block lists -/

theorem forall2_mem_right {α β : Type} {R : α → β → Prop} :
    ∀ {l : List α} {out : List β}, List.Forall₂ R l out →
      ∀ y ∈ out, ∃ x ∈ l, R x y
  | _, _, List.Forall₂.nil, y, hy => absurd hy (by simp)
  | _, _, List.Forall₂.cons hxy htl, y, hy => by
    rcases List.mem_cons.mp hy with rfl | hy
    · exact ⟨_, by simp, hxy⟩
    · obtain ⟨x, hx, hR⟩ := forall2_mem_right htl y hy
      exact ⟨x, by simp [hx], hR⟩

theorem mapMO_total_forall2 {α β : Type} (f : α → Option β) (Q : α → β → Prop) :
    ∀ (l : List α), (∀ x ∈ l, ∃ y, f x = some y ∧ Q x y) →
      ∃ out, mapMO f l = some out ∧
        List.Forall₂ (fun x y => f x = some y ∧ Q x y) l out
  | [], _ => ⟨[], rfl, List.Forall₂.nil⟩
  | x :: xs, h => by
    obtain ⟨y, hy, hQ⟩ := h x (by simp)
    obtain ⟨out, hout, hf2⟩ :=
      mapMO_total_forall2 f Q xs (fun u hu => h u (by simp [hu]))
    exact ⟨y :: out,
      by rw [mapMO_cons, hy, Option.some_bind, hout, Option.some_bind],
      List.Forall₂.cons ⟨hy, hQ⟩ hf2⟩

theorem mapMO_of_forall2 {α β γ : Type} (g : β → Option γ) (hfun : α → γ) :
    ∀ {l : List α} {out : List β},
      List.Forall₂ (fun x y => g y = some (hfun x)) l out →
      mapMO g out = some (l.map hfun)
  | _, _, List.Forall₂.nil => rfl
  | _, _, List.Forall₂.cons hxy htl => by
    rw [List.map_cons, mapMO_cons, hxy, Option.some_bind,
      mapMO_of_forall2 g hfun htl, Option.some_bind]

end SDES

namespace SDES

/-! ### Text round trip -/

theorem encryptTextO_eq (st : State) (s : List Nat) :
    encryptTextO st s =
      (mapMO (encryptO st) (chunk8 (stringToBinary s))).bind fun eb =>
        some (binaryToString eb.flatten) := rfl

theorem decryptTextO_eq (st : State) (s : List Nat) :
    decryptTextO st s =
      (mapMO (decryptO st) (chunk8 (stringToBinary s))).bind fun db =>
        some (binaryToString db.flatten) := rfl

/-- On a well-formed instance, decrypting the encryption of any text of
single-byte character codes returns the text. -/
theorem text_roundtrip (st : State) (hwf : InstanceWF st) (s : List Nat)
    (hs : ∀ c ∈ s, c < 256) :
    (encryptTextO st s).bind (decryptTextO st) = some s := by
  have hblocks : chunk8 (stringToBinary s)
      = s.map fun c => padTo 8 (natToBits c) := by
    rw [stringToBinary]
    refine chunk8_flatten _ (fun b hb => ?_)
    obtain ⟨c, hc, rfl⟩ := List.mem_map.mp hb
    exact (byte_bits c (hs c hc)).1
  obtain ⟨enc, henc, hf2⟩ :=
    mapMO_total_forall2 (encryptO st)
      (fun blk c => Bits c 8 ∧ decryptO st c = some blk)
      (s.map fun c => padTo 8 (natToBits c))
      (fun blk hblk => by
        obtain ⟨c, hc, rfl⟩ := List.mem_map.mp hblk
        obtain ⟨cv, hcv, hbits, hdec⟩ :=
          encrypt_decrypt_block st hwf _ (byte_bits c (hs c hc))
        exact ⟨cv, hcv, hbits, hdec⟩)
  have hencbits : ∀ c ∈ enc, Bits c 8 := fun c hc => by
    obtain ⟨x, _, hR⟩ := forall2_mem_right hf2 c hc
    exact hR.2.1
  have henclen : ∀ c ∈ enc, c.length = 8 := fun c hc => (hencbits c hc).1
  have henct : encryptTextO st s = some (enc.map bitsToNat) := by
    rw [encryptTextO_eq, hblocks, henc, Option.some_bind, binaryToString,
      chunk8_flatten enc henclen]
  have hdecblocks : chunk8 (stringToBinary (enc.map bitsToNat)) = enc := by
    have hmapid : enc.map ((fun c => padTo 8 (natToBits c)) ∘ bitsToNat) = enc :=
      calc enc.map ((fun c => padTo 8 (natToBits c)) ∘ bitsToNat)
          = enc.map id :=
            List.map_congr_left (fun e he => byte_bits_roundtrip e (hencbits e he))
        _ = enc := List.map_id enc
    rw [stringToBinary, List.map_map, hmapid, chunk8_flatten enc henclen]
  have hdecmap := mapMO_of_forall2 (decryptO st) id
    (List.Forall₂.imp (fun a b hR => hR.2.2) hf2)
  rw [List.map_id] at hdecmap
  have hvalid : s.map (bitsToNat ∘ fun c => padTo 8 (natToBits c)) = s :=
    calc s.map (bitsToNat ∘ fun c => padTo 8 (natToBits c))
        = s.map id :=
          List.map_congr_left (fun c hc => byte_value_roundtrip c (hs c hc))
      _ = s := List.map_id s
  have hdect : decryptTextO st (enc.map bitsToNat) = some s := by
    rw [decryptTextO_eq, hdecblocks, hdecmap, Option.some_bind, binaryToString,
      chunk8_flatten _ (fun b hb => by
        obtain ⟨c, hc, rfl⟩ := List.mem_map.mp hb
        exact (byte_bits c (hs c hc)).1),
      List.map_map, hvalid]
  rw [henct, Option.some_bind, hdect]

end SDES

namespace SDES

/-! ### Cumulative circular shifts -/

/-- Shifting a 5-bit half by 1 and then by 2 equals shifting it by 3. -/
theorem circularLeftShift_one_two (l : List Nat) (h : l.length = 5) :
    circularLeftShift (circularLeftShift l 1) 2 = circularLeftShift l 3 := by
  obtain ⟨a, b, c, d, e, rfl⟩ := exists_len5 l h
  rfl

/-! ### The claims -/

/-- C1: for every 10-bit 0/1 master key, every cipher instance constructed
from it (whatever tables and S-boxes the random generators produced), and
every 8-bit 0/1 block, decrypting the encryption of the block returns the
block. -/
theorem C1_block_roundtrip (r : RandSrc) (key block : List Nat)
    (hkey : Bits key 10) (hblock : Bits block 8) :
    ((SDES.mk key r).bind fun C =>
      (encryptO C block).bind fun e => decryptO C e) = some block := by
  obtain ⟨st, hst, hwf⟩ := mk_total key r hkey
  obtain ⟨c, henc, _, hdec⟩ := encrypt_decrypt_block st hwf block hblock
  rw [hst]
  simp only [Option.some_bind]
  rw [henc]
  simp only [Option.some_bind]
  exact hdec

theorem C1_block_roundtrip_witness :
    ((SDES.mk [0, 0, 0, 1, 0, 1, 0, 0, 1, 1] zeroRand).bind fun C =>
      (encryptO C [1, 0, 1, 1, 0, 1, 0, 1]).bind fun e => decryptO C e)
      = some [1, 0, 1, 1, 0, 1, 0, 1] :=
  C1_block_roundtrip zeroRand [0, 0, 0, 1, 0, 1, 0, 0, 1, 1]
    [1, 0, 1, 1, 0, 1, 0, 1] (by decide) (by decide)

/-- C2: for every constructed cipher instance and every string whose
character codes are all below 256, decrypting the encryption of the text
returns the text. -/
theorem C2_text_roundtrip (r : RandSrc) (key s : List Nat)
    (hkey : Bits key 10) (hs : ∀ c ∈ s, c < 256) :
    ((SDES.mk key r).bind fun C =>
      (encryptTextO C s).bind (decryptTextO C)) = some s := by
  obtain ⟨st, hst, hwf⟩ := mk_total key r hkey
  rw [hst]
  simp only [Option.some_bind]
  exact text_roundtrip st hwf s hs

theorem C2_text_roundtrip_witness :
    ((SDES.mk [0, 0, 0, 1, 0, 1, 0, 0, 1, 1] zeroRand).bind fun C =>
      (encryptTextO C [118, 105, 120]).bind (decryptTextO C))
      = some [118, 105, 120] :=
  C2_text_roundtrip zeroRand [0, 0, 0, 1, 0, 1, 0, 0, 1, 1] [118, 105, 120]
    (by decide) (by decide)

/-- C3: on every constructed instance, the stored subkeys are obtained by
permuting the key through P10, shifting the two 5-bit halves left by 1 and
permuting the concatenation through P8 (key1), then shifting by a cumulative
3 positions and permuting through P8 again (key2). -/
theorem C3_key_schedule (key : List Nat) (r : RandSrc) (st : State)
    (h : SDES.mk key r = some st) :
    ∃ pk, permuteO key st.P10 = some pk ∧ pk.length = 10 ∧
      permuteO (circularLeftShift (pk.take 5) 1 ++
        circularLeftShift ((pk.drop 5).take 5) 1) st.P8 = some st.key1 ∧
      permuteO (circularLeftShift (pk.take 5) 3 ++
        circularLeftShift ((pk.drop 5).take 5) 3) st.P8 = some st.key2 := by
  obtain ⟨_, _, _, hP10, _, _, _, _, hgsk⟩ := mk_eq_some h
  rw [generateSubKeys_eq, Option.bind_eq_some] at hgsk
  obtain ⟨pk, hpk, hgsk⟩ := hgsk
  rw [Option.bind_eq_some] at hgsk
  obtain ⟨key1v, hkey1, hgsk⟩ := hgsk
  rw [Option.bind_eq_some] at hgsk
  obtain ⟨key2v, hkey2, hgsk⟩ := hgsk
  rw [Option.some.injEq, Prod.mk.injEq] at hgsk
  obtain ⟨hk1, hk2⟩ := hgsk
  have hpklen : pk.length = 10 := by
    have hl := mapMO_length _ hpk
    rw [hl, hP10, generatePermutationTable_length]
  have htk : (pk.take 5).length = 5 := by
    rw [List.length_take, hpklen]
    omega
  have hdt : ((pk.drop 5).take 5).length = 5 := by
    rw [List.length_take, List.length_drop, hpklen]
    omega
  rw [circularLeftShift_one_two _ htk, circularLeftShift_one_two _ hdt]
    at hkey2
  rw [hk1] at hkey1
  rw [hk2] at hkey2
  exact ⟨pk, hpk, hpklen, hkey1, hkey2⟩

theorem C3_key_schedule_witness :
    ∃ pk, permuteO [0, 0, 0, 1, 0, 1, 0, 0, 1, 1] exampleState.P10 = some pk ∧
      pk.length = 10 ∧
      permuteO (circularLeftShift (pk.take 5) 1 ++
        circularLeftShift ((pk.drop 5).take 5) 1) exampleState.P8
        = some exampleState.key1 ∧
      permuteO (circularLeftShift (pk.take 5) 3 ++
        circularLeftShift ((pk.drop 5).take 5) 3) exampleState.P8
        = some exampleState.key2 :=
  C3_key_schedule [0, 0, 0, 1, 0, 1, 0, 0, 1, 1] zeroRand exampleState
    (by decide)

/-- C4: on 4-bit 0/1 halves, an 8-bit 0/1 subkey, an in-range P4 and
well-formed S-boxes, the round function returns exactly the pair described
by the spec: the new left half is the old left half XOR the P4 permutation
of the S-box substitution of (expansion of R) XOR SK, with the expansion,
S-box addressing (row = bit0*2 + bit3, col = bit1*2 + bit2, BOX_1 left /
BOX_2 right, 2 bits MSB first) and P4 step transcribed from the spec; the
right half passes through. -/
theorem C4_round_formula (st : State) (L R SK : List Nat)
    (hL : Bits L 4) (hR : Bits R 4) (hSK : Bits SK 8)
    (hP4 : TableWF st.P4 4) (hB1 : BoxWF st.BOX_1) (hB2 : BoxWF st.BOX_2) :
    roundO st L R SK =
      some (List.zipWith (fun a b => a ^^^ b) L
        (p4Spec st.P4 (sBoxSpec st.BOX_1 st.BOX_2
          (List.zipWith (fun a b => a ^^^ b) (expandSpec R) SK))), R) := by
  obtain ⟨her, herlen, hermem⟩ := expandAndPermuteO_spec R hR.1
  have herbits : ∀ b ∈ expandSpec R, b ≤ 1 := fun b hb => hR.2 b (hermem b hb)
  have hxor1 := xorO_eq_zipWith (expandSpec R) SK (by rw [herlen, hSK.1])
  have hxlen : (List.zipWith (fun a b => a ^^^ b) (expandSpec R) SK).length = 8 := by
    rw [List.length_zipWith, herlen, hSK.1]
    omega
  have hxbits := xorO_bits hxor1 herbits hSK.2
  obtain ⟨hsbox, hsbits⟩ :=
    sBoxO_spec st.BOX_1 st.BOX_2 _ ⟨hxlen, hxbits⟩ hB1 hB2
  obtain ⟨hp4, hplen, _⟩ := p4PermutationO_spec st.P4 _ hP4 hsbits.1
  have hxor2 := xorO_eq_zipWith L
    (p4Spec st.P4 (sBoxSpec st.BOX_1 st.BOX_2
      (List.zipWith (fun a b => a ^^^ b) (expandSpec R) SK)))
    (by rw [hL.1, hplen])
  rw [roundO_eq, her, Option.some_bind, hxor1, Option.some_bind, hsbox,
    Option.some_bind, hp4, Option.some_bind, hxor2, Option.some_bind]

theorem C4_round_formula_witness :
    roundO exampleState [0, 0, 0, 0] [0, 0, 0, 0] [0, 0, 0, 0, 0, 0, 0, 0] =
      some (List.zipWith (fun a b => a ^^^ b) [0, 0, 0, 0]
        (p4Spec exampleState.P4 (sBoxSpec exampleState.BOX_1
          exampleState.BOX_2
          (List.zipWith (fun a b => a ^^^ b) (expandSpec [0, 0, 0, 0])
            [0, 0, 0, 0, 0, 0, 0, 0]))), [0, 0, 0, 0]) :=
  C4_round_formula exampleState [0, 0, 0, 0] [0, 0, 0, 0]
    [0, 0, 0, 0, 0, 0, 0, 0] (by decide) (by decide) (by decide) (by decide)
    (by decide) (by decide)

end SDES

namespace SDES

/-- C5 counterexample: a cipher state that satisfies everything the claim
assumes — all five permutation tables have entries in `[1, L]` for their
length `L`, both S-boxes are 4x4 matrices with entries in 0..3 — and an
8-bit 0/1 block on which `encrypt` nevertheless fails with an out-of-range
S-box lookup (`none`), because the stored subkey `key1` holds the non-bit
value 2.  The claim as stated is therefore false. -/
theorem C5_claim_counterexample :
    TableWF badState.IP 8 ∧ TableWF badState.IPInverse 8 ∧
    TableWF badState.P10 10 ∧ TableWF badState.P8 8 ∧ TableWF badState.P4 4 ∧
    BoxWF badState.BOX_1 ∧ BoxWF badState.BOX_2 ∧
    Bits [0, 0, 0, 0, 0, 0, 0, 0] 8 ∧
    encryptO badState [0, 0, 0, 0, 0, 0, 0, 0] = none := by decide

/-- C5 (amended): on every cipher state whose permutation tables of length L
contain only entries in [1, L], whose S-boxes are 4x4 matrices with entries
in 0..3, and whose stored subkeys are 8-bit 0/1 vectors, both `encrypt` and
`decrypt` evaluate every lookup in range on every 8-bit 0/1 block and return
an 8-bit result; there is no error path. -/
theorem C5_totality_amended (st : State) (b : List Nat)
    (hIP : TableWF st.IP 8) (hIPi : TableWF st.IPInverse 8)
    (hP10 : TableWF st.P10 10) (hP8 : TableWF st.P8 8)
    (hP4 : TableWF st.P4 4) (hB1 : BoxWF st.BOX_1) (hB2 : BoxWF st.BOX_2)
    (hk1 : Bits st.key1 8) (hk2 : Bits st.key2 8) (hb : Bits b 8) :
    (∃ c, encryptO st b = some c ∧ c.length = 8) ∧
    (∃ d, decryptO st b = some d ∧ d.length = 8) := by
  constructor
  · obtain ⟨out, hout, hbits⟩ :=
      feistelO_total st st.key1 st.key2 b hIP hIPi hP4 hB1 hB2 hk1 hk2 hb
    exact ⟨out, by rw [encryptO_eq]; exact hout, hbits.1⟩
  · obtain ⟨out, hout, hbits⟩ :=
      feistelO_total st st.key2 st.key1 b hIP hIPi hP4 hB1 hB2 hk2 hk1 hb
    exact ⟨out, by rw [decryptO_eq]; exact hout, hbits.1⟩

theorem C5_totality_amended_witness :
    (∃ c, encryptO exampleState [1, 0, 1, 1, 0, 1, 0, 1] = some c ∧
      c.length = 8) ∧
    (∃ d, decryptO exampleState [1, 0, 1, 1, 0, 1, 0, 1] = some d ∧
      d.length = 8) :=
  C5_totality_amended exampleState [1, 0, 1, 1, 0, 1, 0, 1] (by decide)
    (by decide) (by decide) (by decide) (by decide) (by decide) (by decide)
    (by decide) (by decide) (by decide)

/-- C6: for every outcome of the random source, the S-box generator returns
a 4-row matrix in which each row is a permutation of {0,1,2,3}. -/
theorem C6_sbox_rows (r : Nat → Nat → Nat) :
    (generateSBox r).length = 4 ∧
      ∀ row ∈ generateSBox r, row.Perm [0, 1, 2, 3] :=
  ⟨by simp [generateSBox], generateSBox_row_perm r⟩

theorem C6_sbox_rows_witness : List.Perm [1, 2, 3, 0] [0, 1, 2, 3] :=
  (C6_sbox_rows fun _ _ => 0).2 [1, 2, 3, 0] (by decide)

/-- C7: the permutation-table generator always returns exactly `length`
values in `[1, length]`, but does not guarantee a bijection: for some
outcome of the random source the table contains a duplicate (witnessed at
length 4 by the all-zero random source, which yields `[1, 1, 1, 1]`). -/
theorem C7_table_range_not_bijective :
    (∀ (n : Nat) (rt rs : Nat → Nat),
      (generatePermutationTable n rt rs).length = n ∧
      ∀ x ∈ generatePermutationTable n rt rs, 1 ≤ x ∧ x ≤ n) ∧
    (∃ rt rs : Nat → Nat, ¬ (generatePermutationTable 4 rt rs).Nodup) := by
  constructor
  · intro n rt rs
    exact ⟨generatePermutationTable_length n rt rs,
      (generatePermutationTable_wf n rt rs).2⟩
  · exact ⟨fun _ => 0, fun _ => 0, by decide⟩

theorem C7_table_range_not_bijective_witness : 1 ≤ 1 ∧ 1 ≤ 4 :=
  (C7_table_range_not_bijective.1 4 (fun _ => 0) (fun _ => 0)).2 1 (by decide)

/-- C8: the round function returns its input right half unchanged as the
second component of its output pair; it performs no swap itself. -/
theorem C8_round_keeps_right (st : State) (left right key : List Nat)
    (out : List Nat × List Nat) (h : roundO st left right key = some out) :
    out.2 = right :=
  roundO_snd h

theorem C8_round_keeps_right_witness :
    (([0, 0, 0, 0], [0, 0, 0, 0]) : List Nat × List Nat).2 = [0, 0, 0, 0] :=
  C8_round_keeps_right exampleState [0, 0, 0, 0] [0, 0, 0, 0]
    [0, 0, 0, 0, 0, 0, 0, 0] ([0, 0, 0, 0], [0, 0, 0, 0]) (by decide)

/-- C9: every constructed instance has the identity initial permutation
`[1..8]`, its derived inverse is also the identity, and both are no-ops on
every 8-element block inside `encrypt` and `decrypt`. -/
theorem C9_identity_IP (key : List Nat) (r : RandSrc) (st : State)
    (h : SDES.mk key r = some st) :
    st.IP = [1, 2, 3, 4, 5, 6, 7, 8] ∧
    st.IPInverse = [1, 2, 3, 4, 5, 6, 7, 8] ∧
    ∀ block : List Nat, block.length = 8 →
      permuteO block st.IP = some block ∧
      permuteO block st.IPInverse = some block := by
  obtain ⟨_, hIP, hIPi, _⟩ := mk_eq_some h
  refine ⟨hIP, hIPi, fun block hb => ⟨?_, ?_⟩⟩
  · rw [hIP]
    exact permuteO_id8 block hb
  · rw [hIPi]
    exact permuteO_id8 block hb

theorem C9_identity_IP_witness :
    permuteO [1, 0, 1, 1, 0, 1, 0, 1] exampleState.IP
      = some [1, 0, 1, 1, 0, 1, 0, 1] :=
  ((C9_identity_IP [0, 0, 0, 1, 0, 1, 0, 0, 1, 1] zeroRand exampleState
    (by decide)).2.2 [1, 0, 1, 1, 0, 1, 0, 1] (by decide)).1

/-- C10: on every constructed instance, the special-cased `p4Permutation`
agrees with the general `permute` routine on every 4-element input (the
input length equals the table length). -/
theorem C10_p4_agrees (key : List Nat) (r : RandSrc) (st : State)
    (h : SDES.mk key r = some st) (v : List Nat) (hv : v.length = 4) :
    p4PermutationO st.P4 v = permuteO v st.P4 := by
  obtain ⟨_, _, _, _, _, hP4, _⟩ := mk_eq_some h
  refine p4PermutationO_eq_permuteO st.P4 v ?_
  rw [hv, hP4, generatePermutationTable_length]

theorem C10_p4_agrees_witness :
    p4PermutationO exampleState.P4 [1, 0, 1, 1]
      = permuteO [1, 0, 1, 1] exampleState.P4 :=
  C10_p4_agrees [0, 0, 0, 1, 0, 1, 0, 0, 1, 1] zeroRand exampleState
    (by decide) [1, 0, 1, 1] (by decide)

end SDES
